import Mathlib

/-!
Verification of the open-multiple-dispatch engine described in the
repository's documentation (class hierarchy registry, specificity
resolver, dispatch table compiler, dispatch runtime).

The repository material at hand consists of the engine's reference
documentation and tutorial tests; the engine itself is therefore
modelled from the specification text, faithfully to its words, and the
documented scenarios (the `kick` method over Animal/Dog/Bulldog/Cat and
the Herbivore/Carnivore/Omnivore diamond) are embedded concretely.
-/

namespace Yomm

/-- A registered class is identified by a natural-number id. -/
abbrev ClassId := Nat

/-- Modelled from the spec: the Class Hierarchy Registry (§3 ClassNode,
§4.1) stores the declared classes and the direct-base edges.  An edge
`(d, b)` records that `b` is a direct base of `d`.  The dispatch engine
is not among the provided sources (only its documentation and tutorial
tests are), so the engine is modelled from the spec throughout. -/
structure Registry where
  classes : List ClassId
  edges : List (ClassId × ClassId)
deriving DecidableEq

/-- Modelled from the spec: bounded exploration of the direct-base
graph.  `ancAux edges f c` lists every class reachable from `c` by
following at most `f` direct-base edges (possibly with duplicates). -/
def ancAux (edges : List (ClassId × ClassId)) : Nat → ClassId → List ClassId
  | 0, c => [c]
  | f+1, c =>
    c :: ((edges.filter (fun p => decide (p.1 = c))).map Prod.snd).flatMap (ancAux edges f)

/-- The direct-base edges with both ends swapped; walking them goes from
a class toward its derived classes. -/
def swapEdges (edges : List (ClassId × ClassId)) : List (ClassId × ClassId) :=
  edges.map (fun p => (p.2, p.1))

/-- Fuel used by the closure computation: in a DAG no walk is longer
than the number of edges, so this bound is always sufficient. -/
def fuelOf (reg : Registry) : Nat := reg.edges.length

/-- Modelled from the spec: `compute_closures` (§4.1) — the reflexive
transitive ancestor set of a class, deduplicated, so repeated diamond
ancestry appears once. -/
def ancestorsOf (reg : Registry) (c : ClassId) : List ClassId :=
  (ancAux reg.edges (fuelOf reg) c).dedup

/-- Modelled from the spec: the reflexive transitive descendant set of a
class, deduplicated. -/
def descendantsOf (reg : Registry) (c : ClassId) : List ClassId :=
  (ancAux (swapEdges reg.edges) (fuelOf reg) c).dedup

/-- `Reaches edges c a` holds when `a` is `c` itself or a transitive
base of `c` along the recorded direct-base edges. -/
inductive Reaches (edges : List (ClassId × ClassId)) : ClassId → ClassId → Prop
  | refl (c : ClassId) : Reaches edges c c
  | step {c b a : ClassId} : (c, b) ∈ edges → Reaches edges b a → Reaches edges c a

/-- A walk of length at most `f` from `c` down to a transitive base `a`. -/
inductive WalkLe (edges : List (ClassId × ClassId)) : Nat → ClassId → ClassId → Prop
  | refl (f : Nat) (c : ClassId) : WalkLe edges f c c
  | step {f : Nat} {c b a : ClassId} :
      (c, b) ∈ edges → WalkLe edges f b a → WalkLe edges (f + 1) c a

/-- The DAG invariant of §3, witnessed by a rank that strictly decreases
along every direct-base edge and is bounded by the edge count (for a
finite DAG such a rank always exists, e.g. the longest-walk length). -/
def RankOk (reg : Registry) (rk : ClassId → Nat) : Prop :=
  (∀ p ∈ reg.edges, rk p.2 < rk p.1) ∧ ∀ c, rk c ≤ reg.edges.length

/-- Is `b` a reflexive ancestor of `c`, given an ancestor-set function? -/
def isAncF (anc : ClassId → List ClassId) (b c : ClassId) : Bool :=
  decide (b ∈ anc c)

/-- Modelled from the spec (§4.3): an override with parameter-class
tuple `tup` is applicable to the actual argument classes `args` iff each
per-slot class is a reflexive ancestor of the corresponding argument
class. -/
def applicableF (anc : ClassId → List ClassId) (tup args : List ClassId) : Bool :=
  decide (tup.length = args.length) && (tup.zip args).all (fun p => isAncF anc p.1 p.2)

/-- Modelled from the spec (§3 SpecificityEdge): tuple `ta` is strictly
more specific than `tb` iff in every slot `ta`'s class equals or
descends from `tb`'s class, and in at least one slot it is a strict
descendant. -/
def moreSpecificF (anc : ClassId → List ClassId) (ta tb : List ClassId) : Bool :=
  decide (ta.length = tb.length)
    && (ta.zip tb).all (fun p => isAncF anc p.2 p.1)
    && (ta.zip tb).any (fun p => decide (p.1 ≠ p.2))

/-- Indices of the overrides applicable to `args` (overrides are kept as
a list of parameter-class tuples; an index identifies one override). -/
def appIndicesF (anc : ClassId → List ClassId) (ovs : List (List ClassId))
    (args : List ClassId) : List Nat :=
  (List.range ovs.length).filter (fun i => applicableF anc (ovs.getD i []) args)

/-- The maximal elements of `rem` under the specificity partial order:
those with no strictly more specific element in `rem`. -/
def maximalsOfF (anc : ClassId → List ClassId) (ovs : List (List ClassId))
    (rem : List Nat) : List Nat :=
  rem.filter (fun i =>
    rem.all (fun j => decide (j = i) || !(moreSpecificF anc (ovs.getD j []) (ovs.getD i []))))

/-- Outcome of the Specificity Resolver for one argument-class tuple. -/
inductive Resolution where
  | selected (i : Nat)
  | ambiguous
  | noApplicable
  | unregistered
deriving DecidableEq

/-- Modelled from the spec (§4.3, §4.5): the resolver first checks that
every argument's runtime class is registered; among the applicable
overrides it selects the unique maximal one under specificity, reports
ambiguity when the maximal set has two or more elements, and reports
missing coverage when no override is applicable. -/
def resolveF (anc : ClassId → List ClassId) (isReg : ClassId → Bool)
    (ovs : List (List ClassId)) (args : List ClassId) : Resolution :=
  if args.all isReg then
    match maximalsOfF anc ovs (appIndicesF anc ovs args) with
    | [] => .noApplicable
    | [i] => .selected i
    | _ :: _ :: _ => .ambiguous
  else .unregistered

/-- The unique maximal element of `rem`, when there is one. -/
def uniqueMaxF (anc : ClassId → List ClassId) (ovs : List (List ClassId))
    (rem : List Nat) : Option Nat :=
  match maximalsOfF anc ovs rem with
  | [i] => some i
  | _ => none

/-- Modelled from the spec (§4.3 "next chain construction"): repeatedly
take the maximal element of the remaining applicable set and remove it.
When the remainder has no unique maximal element the chain stops at the
sentinel, since ambiguity is never resolved by an arbitrary tie-break
(§7). -/
def chainAuxF (anc : ClassId → List ClassId) (ovs : List (List ClassId)) :
    Nat → List Nat → List Nat
  | 0, _ => []
  | f+1, rem =>
    match uniqueMaxF anc ovs rem with
    | some i => i :: chainAuxF anc ovs f (rem.erase i)
    | none => []

/-- The "next" chain for one argument-class tuple: the applicable
overrides in decreasing order of specificity, starting at the selected
one. -/
def nextChainF (anc : ClassId → List ClassId) (ovs : List (List ClassId))
    (args : List ClassId) : List Nat :=
  chainAuxF anc ovs (appIndicesF anc ovs args).length (appIndicesF anc ovs args)

/-- Call-time errors surfaced by the Dispatch Runtime (§7). -/
inductive CallError where
  | ambiguousCall
  | noApplicableOverride
  | unregisteredRuntimeClass
deriving DecidableEq

/-- The outcome of one dispatch call. -/
inductive CallOutcome where
  | ok (s : String)
  | err (e : CallError)
deriving DecidableEq

/-- Runs the body of the first override of the chain, handing it the
result of the rest of the chain as its "next" entry point; `none` plays
the sentinel "no next" value. -/
def evalChain (bodies : Nat → Option String → Option String) : List Nat → Option String
  | [] => none
  | i :: rest => bodies i (evalChain bodies rest)

/-- Modelled from the spec (§4.5): one dispatch call — resolve the
argument tuple, then invoke the selected override with its "next" chain
available; every error is reported, never recovered from. -/
def callMethodF (anc : ClassId → List ClassId) (isReg : ClassId → Bool)
    (ovs : List (List ClassId)) (bodies : Nat → Option String → Option String)
    (args : List ClassId) : CallOutcome :=
  match resolveF anc isReg ovs args with
  | .unregistered => .err .unregisteredRuntimeClass
  | .noApplicable => .err .noApplicableOverride
  | .ambiguous => .err .ambiguousCall
  | .selected _ =>
    match evalChain bodies (nextChainF anc ovs args) with
    | some s => .ok s
    | none => .err .noApplicableOverride

/-- The ancestor-set function of a registry. -/
def regAnc (reg : Registry) : ClassId → List ClassId :=
  fun c => ancestorsOf reg c

/-- The registered-class test of a registry. -/
def regHas (reg : Registry) : ClassId → Bool :=
  fun c => decide (c ∈ reg.classes)

/-- Resolution against a registry's computed closures. -/
def resolve (reg : Registry) (ovs : List (List ClassId)) (args : List ClassId) : Resolution :=
  resolveF (regAnc reg) (regHas reg) ovs args

/-- Applicable override indices against a registry's computed closures. -/
def appIndices (reg : Registry) (ovs : List (List ClassId)) (args : List ClassId) : List Nat :=
  appIndicesF (regAnc reg) ovs args

/-- The "next" chain against a registry's computed closures. -/
def nextChain (reg : Registry) (ovs : List (List ClassId)) (args : List ClassId) : List Nat :=
  nextChainF (regAnc reg) ovs args

/-- One dispatch call against a registry's computed closures. -/
def callMethod (reg : Registry) (ovs : List (List ClassId))
    (bodies : Nat → Option String → Option String) (args : List ClassId) : CallOutcome :=
  callMethodF (regAnc reg) (regHas reg) ovs bodies args

/-- Proposition form of per-tuple applicability: same arity, and every
slot class is a reflexive ancestor (`Reaches`) of the argument class. -/
def AppliesP (reg : Registry) (tup args : List ClassId) : Prop :=
  tup.length = args.length ∧
    ∀ k, k < args.length → Reaches reg.edges (args.getD k 0) (tup.getD k 0)

/-- Proposition form of strict specificity between two tuples. -/
def MoreSpecP (reg : Registry) (ta tb : List ClassId) : Prop :=
  ta.length = tb.length ∧
    (∀ k, k < ta.length → Reaches reg.edges (ta.getD k 0) (tb.getD k 0)) ∧
    ∃ k, k < ta.length ∧ ta.getD k 0 ≠ tb.getD k 0

/-- Override `i` exists and is applicable to `args`. -/
def ApplicableIdx (reg : Registry) (ovs : List (List ClassId)) (args : List ClassId)
    (i : Nat) : Prop :=
  i < ovs.length ∧ AppliesP reg (ovs.getD i []) args

/-- Override `i` is applicable and no applicable override is strictly
more specific than it. -/
def MaximalIdx (reg : Registry) (ovs : List (List ClassId)) (args : List ClassId)
    (i : Nat) : Prop :=
  ApplicableIdx reg ovs args i ∧
    ∀ j, ApplicableIdx reg ovs args j →
      ¬ MoreSpecP reg (ovs.getD j []) (ovs.getD i [])

/-- Add one class id to the registry's class list, a no-op when it is
already known. -/
def addClass (cs : List ClassId) (c : ClassId) : List ClassId :=
  if c ∈ cs then cs else cs ++ [c]

/-- Add a batch of class ids, each a no-op when already known. -/
def addClasses (cs : List ClassId) (batch : List ClassId) : List ClassId :=
  batch.foldl addClass cs

/-- Modelled from the spec (§4.1) and the `use_classes` reference page:
the direct-base edges visible within one batch are those pairs of batch
members related by the ambient C++ inheritance relation `world`; edges
are never inferred across separate batches. -/
def inferredEdges (world : List (ClassId × ClassId)) (batch : List ClassId) :
    List (ClassId × ClassId) :=
  batch.flatMap (fun c =>
    (batch.filter (fun b => decide ((c, b) ∈ world))).map (fun b => (c, b)))

/-- Modelled from the spec: `declare_classes(batch)` / `use_classes` —
register a batch of classes and the direct-base edges visible within the
batch, additively. -/
def use_classes (world : List (ClassId × ClassId)) (batch : List ClassId)
    (r : Registry) : Registry :=
  { classes := addClasses r.classes batch,
    edges := r.edges ++ inferredEdges world batch }

/-- Modelled from the reference page of the single-class registration
form: register `c` together with its explicitly listed direct bases. -/
def classDecl (c : ClassId) (bases : List ClassId) (r : Registry) : Registry :=
  { classes := addClasses r.classes (c :: bases),
    edges := r.edges ++ bases.map (fun b => (c, b)) }

/-- The series of single-class registrations equivalent to one
`use_classes` batch: each batch member is registered with its direct
bases among the batch. -/
def declSeq (world : List (ClassId × ClassId)) (batch : List ClassId)
    (r : Registry) : Registry :=
  batch.foldl (fun acc c => classDecl c (batch.filter (fun b => decide ((c, b) ∈ world))) acc) r

/-- Modelled from the spec (§3 MethodSpec): a method is keyed by a key
together with its signature; it carries its registered override
tuples. -/
structure MethodSpec where
  key : Nat
  sig : Nat
  ovs : List (List ClassId)
deriving DecidableEq

/-- Registration-time errors of the Method Registry (§4.2). -/
inductive DeclErr where
  | duplicateMethod
deriving DecidableEq

/-- Modelled from the spec (§4.2): create a MethodSpec, or fail with
DuplicateMethod when the same key+signature combination already
exists. -/
def declare_method (key sg : Nat) (ms : List MethodSpec) :
    Except DeclErr (List MethodSpec) :=
  if ms.any (fun m => decide (m.key = key) && decide (m.sig = sg)) then
    .error .duplicateMethod
  else
    .ok (ms ++ [⟨key, sg, []⟩])

/-- Modelled from the spec (§4.2): attach one override tuple to the
method identified by `key` and `sg`. -/
def add_override (key sg : Nat) (tup : List ClassId) (ms : List MethodSpec) :
    List MethodSpec :=
  ms.map (fun m =>
    if decide (m.key = key) && decide (m.sig = sg) then
      ⟨m.key, m.sig, m.ovs ++ [tup]⟩
    else m)

/-- Look a method up by key and signature. -/
def findMethod (key sg : Nat) (ms : List MethodSpec) : Option MethodSpec :=
  ms.find? (fun m => decide (m.key = key) && decide (m.sig = sg))

/-- The override tuples of an optional method. -/
def ovsOf (m : Option MethodSpec) : List (List ClassId) :=
  (m.map MethodSpec.ovs).getD []

/-- Modelled from the spec (§3 DispatchEntry, §4.4): the compiled
tables, read-only to the runtime — here, the per-class ancestor closures
keyed by class id. -/
structure Tables where
  anc : List (ClassId × List ClassId)
deriving DecidableEq

/-- Modelled from the spec (§4.4): the Dispatch Table Compiler
materializes the closures of every registered class. -/
def compile (reg : Registry) : Tables :=
  ⟨reg.classes.map (fun c => (c, ancestorsOf reg c))⟩

/-- Ancestor closure of a class as recorded in the compiled tables. -/
def tableAnc (t : Tables) (c : ClassId) : List ClassId :=
  ((t.anc.find? (fun p => decide (p.1 = c))).map Prod.snd).getD []

/-- Whether the compiled tables know a class id. -/
def tableHas (t : Tables) (c : ClassId) : Bool :=
  (t.anc.find? (fun p => decide (p.1 = c))).isSome

/-- Modelled from the spec (§2, §5): the whole engine state — the two
registries, the compiled tables, and the lazy memoizing dispatch cache
keyed by (method key, signature, argument tuple). -/
structure Sys where
  reg : Registry
  methods : List MethodSpec
  tables : Tables
  cache : List ((Nat × Nat × List ClassId) × CallOutcome)
deriving DecidableEq

/-- Modelled from the spec (§6): `rebuild()` recomputes the closures,
replaces the compiled tables wholesale and resets the lazy cache; it
never mutates the registries. -/
def rebuild (s : Sys) : Sys :=
  { reg := s.reg, methods := s.methods, tables := compile s.reg, cache := [] }

/-- Modelled from the spec (§4.4, §4.5): one runtime dispatch call —
served from the lazy cache on a hit; on a miss, resolved against the
compiled tables and memoized.  Dispatch reads the registries and tables
only. -/
def sysCall (s : Sys) (bodies : Nat → Option String → Option String)
    (key sg : Nat) (args : List ClassId) : CallOutcome × Sys :=
  match s.cache.find? (fun e => decide (e.1 = (key, sg, args))) with
  | some e => (e.2, s)
  | none =>
    let out := callMethodF (tableAnc s.tables) (tableHas s.tables)
      (ovsOf (findMethod key sg s.methods)) bodies args
    (out, { s with cache := ((key, sg, args), out) :: s.cache })

/-- The documented diamond hierarchy (use_classes reference page):
Animal 0, Herbivore 1, Carnivore 2, Omnivore 3. -/
def omniReg : Registry :=
  ⟨[0, 1, 2, 3], [(1, 0), (2, 0), (3, 1), (3, 2)]⟩

/-- A rank witnessing that the diamond hierarchy is a DAG. -/
def omniRank : ClassId → Nat :=
  fun c => [0, 1, 1, 2].getD c 0

/-- Sibling overrides for Herbivore and Carnivore; none for Omnivore. -/
def omniOvs : List (List ClassId) := [[1], [2]]

/-- Bodies of the sibling overrides. -/
def omniBodies : Nat → Option String → Option String :=
  fun i _ => if i = 0 then some "graze" else if i = 1 then some "hunt" else none

/-- Overrides for Herbivore, Carnivore and Omnivore itself. -/
def omni3Ovs : List (List ClassId) := [[1], [2], [3]]

/-- The documented kick hierarchy (tutorial test): Animal 0, Dog 1,
Bulldog 2, Cat 3. -/
def kickReg : Registry :=
  ⟨[0, 1, 2, 3], [(1, 0), (2, 1), (3, 0)]⟩

/-- Overrides of the kick method: index 0 for Dog, index 1 for Bulldog. -/
def kickOvs : List (List ClassId) := [[1], [2]]

/-- Bodies of the kick overrides: the Dog override returns "bark"; the
Bulldog override invokes its next override and appends " and bite back". -/
def kickBodies : Nat → Option String → Option String :=
  fun i next =>
    if i = 0 then some "bark"
    else if i = 1 then next.map (fun s => s ++ " and bite back")
    else none

/-- The kick hierarchy with the intermediate runtime class Dog omitted
from the registry. -/
def kickRegNoDog : Registry :=
  ⟨[0, 2], [(2, 0)]⟩

/-- Overrides for Animal and Bulldog only, so that Dog appears solely as
a runtime class, never in an override tuple. -/
def kickOvsAnimalBulldog : List (List ClassId) := [[0], [2]]

theorem walkLe_mono {edges : List (ClassId × ClassId)} {f g : Nat} {c a : ClassId}
    (h : WalkLe edges f c a) (hfg : f ≤ g) : WalkLe edges g c a := by
  induction h generalizing g with
  | refl => exact .refl _ _
  | step hmem _ ih =>
    obtain ⟨g', rfl⟩ : ∃ g', g = g' + 1 := ⟨g - 1, by omega⟩
    exact .step hmem (ih (by omega))

theorem mem_ancAux_iff (edges : List (ClassId × ClassId)) :
    ∀ (f : Nat) (c a : ClassId), a ∈ ancAux edges f c ↔ WalkLe edges f c a := by
  intro f
  induction f with
  | zero =>
    intro c a
    constructor
    · intro h
      have : a = c := by simpa [ancAux] using h
      subst this
      exact .refl _ _
    · intro h
      cases h with
      | refl => simp [ancAux]
  | succ f ih =>
    intro c a
    constructor
    · intro h
      rcases List.mem_cons.1 h with rfl | h2
      · exact .refl _ _
      · rcases List.mem_flatMap.1 h2 with ⟨b, hb, ha⟩
        rcases List.mem_map.1 hb with ⟨p, hp, rfl⟩
        rcases List.mem_filter.1 hp with ⟨hpe, hpc⟩
        have hc : p.1 = c := by simpa using hpc
        have hce : (c, p.2) ∈ edges := by rw [← hc]; exact hpe
        exact .step hce ((ih p.2 a).1 ha)
    · intro h
      cases h with
      | refl => exact List.mem_cons_self _ _
      | step hmem hw =>
        rename_i b
        exact List.mem_cons.2 (Or.inr (List.mem_flatMap.2
          ⟨b, List.mem_map.2 ⟨(c, b), List.mem_filter.2 ⟨hmem, by simp⟩, rfl⟩,
            (ih b a).2 hw⟩))

theorem reaches_of_walkLe {edges : List (ClassId × ClassId)} {f : Nat} {c a : ClassId}
    (h : WalkLe edges f c a) : Reaches edges c a := by
  induction h with
  | refl => exact .refl _
  | step hmem _ ih => exact .step hmem ih

theorem rank_le_of_reaches {edges : List (ClassId × ClassId)} {rk : ClassId → Nat}
    (hd : ∀ p ∈ edges, rk p.2 < rk p.1) {c a : ClassId} (h : Reaches edges c a) :
    rk a ≤ rk c := by
  induction h with
  | refl => exact le_refl _
  | @step c' b' a' hmem hrest ih =>
    have h1 : rk b' < rk c' := hd _ hmem
    omega

theorem walkLe_of_reaches {edges : List (ClassId × ClassId)} {rk : ClassId → Nat}
    (hd : ∀ p ∈ edges, rk p.2 < rk p.1) {c a : ClassId} (h : Reaches edges c a) :
    WalkLe edges (rk c - rk a) c a := by
  induction h with
  | refl => exact .refl _ _
  | @step c' b' a' hmem hrest ih =>
    have h1 : rk b' < rk c' := hd _ hmem
    have h2 : rk a' ≤ rk b' := rank_le_of_reaches hd hrest
    exact walkLe_mono (.step hmem ih) (by omega)

theorem mem_ancestorsOf_iff {reg : Registry} {rk : ClassId → Nat} (hr : RankOk reg rk)
    (c a : ClassId) : a ∈ ancestorsOf reg c ↔ Reaches reg.edges c a := by
  unfold ancestorsOf
  rw [List.mem_dedup]
  constructor
  · intro h
    exact reaches_of_walkLe ((mem_ancAux_iff reg.edges (fuelOf reg) c a).1 h)
  · intro h
    refine (mem_ancAux_iff reg.edges (fuelOf reg) c a).2
      (walkLe_mono (walkLe_of_reaches hr.1 h) ?_)
    have hb := hr.2 c
    unfold fuelOf
    omega

theorem mem_swapEdges {edges : List (ClassId × ClassId)} {x y : ClassId} :
    (x, y) ∈ swapEdges edges ↔ (y, x) ∈ edges := by
  unfold swapEdges
  constructor
  · intro h
    rcases List.mem_map.1 h with ⟨p, hp, he⟩
    rcases p with ⟨u, v⟩
    simp only [Prod.mk.injEq] at he
    rcases he with ⟨rfl, rfl⟩
    exact hp
  · intro h
    exact List.mem_map.2 ⟨(y, x), h, rfl⟩

theorem reaches_tail {edges : List (ClassId × ClassId)} {d b a : ClassId}
    (h : Reaches edges d b) : (b, a) ∈ edges → Reaches edges d a := by
  induction h with
  | refl => intro hba; exact .step hba (.refl _)
  | step hmem _ ih => intro hba; exact .step hmem (ih hba)

theorem reaches_swap_iff {edges : List (ClassId × ClassId)} {a d : ClassId} :
    Reaches (swapEdges edges) a d ↔ Reaches edges d a := by
  constructor
  · intro h
    induction h with
    | refl => exact .refl _
    | step hmem _ ih => exact reaches_tail ih (mem_swapEdges.1 hmem)
  · intro h
    induction h with
    | refl => exact .refl _
    | step hmem _ ih => exact reaches_tail ih (mem_swapEdges.2 hmem)

theorem mem_descendantsOf_iff {reg : Registry} {rk : ClassId → Nat} (hr : RankOk reg rk)
    (a d : ClassId) : d ∈ descendantsOf reg a ↔ Reaches reg.edges d a := by
  have hd' : ∀ p ∈ swapEdges reg.edges,
      (fun c => reg.edges.length - rk c) p.2 < (fun c => reg.edges.length - rk c) p.1 := by
    intro p hp
    have h1 : (p.2, p.1) ∈ reg.edges := mem_swapEdges.1 hp
    have h2 : rk p.1 < rk p.2 := hr.1 _ h1
    have h3 : rk p.2 ≤ reg.edges.length := hr.2 p.2
    simp only
    omega
  unfold descendantsOf
  rw [List.mem_dedup]
  constructor
  · intro h
    exact reaches_swap_iff.1
      (reaches_of_walkLe ((mem_ancAux_iff (swapEdges reg.edges) (fuelOf reg) a d).1 h))
  · intro h
    refine (mem_ancAux_iff (swapEdges reg.edges) (fuelOf reg) a d).2
      (walkLe_mono
        (@walkLe_of_reaches (swapEdges reg.edges) (fun c => reg.edges.length - rk c)
          hd' a d (reaches_swap_iff.2 h)) ?_)
    unfold fuelOf
    simp only
    omega

/-- C2: for every registry whose direct-base edges form a DAG (witnessed
by a rank function that strictly decreases along every edge and stays
within the edge count), `compute_closures` yields for every class an
ancestor set that contains the class itself and exactly its transitive
bases, with no duplicates, and a descendant set that is exactly the
inverse relation of the ancestor sets. -/
theorem compute_closures_correct (reg : Registry) (rk : ClassId → Nat)
    (hr : RankOk reg rk) :
    (∀ c, c ∈ ancestorsOf reg c)
    ∧ (∀ c, (ancestorsOf reg c).Nodup)
    ∧ (∀ c, (descendantsOf reg c).Nodup)
    ∧ (∀ c a, a ∈ ancestorsOf reg c ↔ Reaches reg.edges c a)
    ∧ (∀ a d, d ∈ descendantsOf reg a ↔ a ∈ ancestorsOf reg d) := by
  refine ⟨fun c => (mem_ancestorsOf_iff hr c c).2 (.refl c),
    fun c => by unfold ancestorsOf; exact List.nodup_dedup _,
    fun c => by unfold descendantsOf; exact List.nodup_dedup _,
    fun c a => mem_ancestorsOf_iff hr c a,
    fun a d => ?_⟩
  rw [mem_descendantsOf_iff hr a d, mem_ancestorsOf_iff hr d a]

/-- Witness for C2: the documented diamond hierarchy, with the depth
rank; Animal is an ancestor of Omnivore and Omnivore a descendant of
Animal. -/
theorem compute_closures_correct_witness :
    0 ∈ ancestorsOf omniReg 3 ∧ 3 ∈ descendantsOf omniReg 0 := by
  have hr : RankOk omniReg omniRank := by
    constructor
    · decide
    · intro c
      show [0, 1, 1, 2].getD c 0 ≤ 4
      rcases c with _ | _ | _ | _ | c
      · decide
      · decide
      · decide
      · decide
      · rw [List.getD_eq_default]
        · omega
        · simp
  have h1 : 0 ∈ ancestorsOf omniReg 3 :=
    ((compute_closures_correct omniReg omniRank hr).2.2.2.1 3 0).2
      (@Reaches.step omniReg.edges 3 1 0 (by decide)
        (@Reaches.step omniReg.edges 1 0 0 (by decide) (.refl 0)))
  exact ⟨h1, ((compute_closures_correct omniReg omniRank hr).2.2.2.2 0 3).2 h1⟩

theorem omniRankOk : RankOk omniReg omniRank := by
  constructor
  · decide
  · intro c
    show [0, 1, 1, 2].getD c 0 ≤ 4
    rcases c with _ | _ | _ | _ | c
    · decide
    · decide
    · decide
    · decide
    · rw [List.getD_eq_default]
      · omega
      · simp

theorem zip_all_iff (p : ClassId × ClassId → Bool) :
    ∀ (xs ys : List ClassId), ((xs.zip ys).all p = true)
      ↔ ∀ k, k < xs.length → k < ys.length → p (xs.getD k 0, ys.getD k 0) = true := by
  intro xs
  induction xs with
  | nil => intro ys; simp
  | cons x xs ih =>
    intro ys
    cases ys with
    | nil => simp
    | cons y ys =>
      simp only [List.zip_cons_cons, List.all_cons, Bool.and_eq_true, ih ys]
      constructor
      · rintro ⟨h0, hrest⟩ k hk1 hk2
        cases k with
        | zero => simpa using h0
        | succ k =>
          simpa using hrest k (by simpa using hk1) (by simpa using hk2)
      · intro h
        refine ⟨by simpa using h 0 (by simp) (by simp), fun k hk1 hk2 => ?_⟩
        simpa using h (k + 1) (by simpa using hk1) (by simpa using hk2)

theorem zip_any_iff (p : ClassId × ClassId → Bool) :
    ∀ (xs ys : List ClassId), ((xs.zip ys).any p = true)
      ↔ ∃ k, k < xs.length ∧ k < ys.length ∧ p (xs.getD k 0, ys.getD k 0) = true := by
  intro xs
  induction xs with
  | nil => intro ys; simp
  | cons x xs ih =>
    intro ys
    cases ys with
    | nil => simp
    | cons y ys =>
      simp only [List.zip_cons_cons, List.any_cons, Bool.or_eq_true, ih ys]
      constructor
      · rintro (h0 | ⟨k, hk1, hk2, hp⟩)
        · exact ⟨0, by simp, by simp, by simpa using h0⟩
        · exact ⟨k + 1, by simpa using hk1, by simpa using hk2, by simpa using hp⟩
      · rintro ⟨k, hk1, hk2, hp⟩
        cases k with
        | zero => exact Or.inl (by simpa using hp)
        | succ k =>
          exact Or.inr ⟨k, by simpa using hk1, by simpa using hk2, by simpa using hp⟩

theorem isAncF_regAnc_iff {reg : Registry} {rk : ClassId → Nat} (hr : RankOk reg rk)
    (b c : ClassId) : isAncF (regAnc reg) b c = true ↔ Reaches reg.edges c b := by
  unfold isAncF regAnc
  rw [decide_eq_true_eq]
  exact mem_ancestorsOf_iff hr c b

theorem applicableF_iff {reg : Registry} {rk : ClassId → Nat} (hr : RankOk reg rk)
    (tup args : List ClassId) :
    applicableF (regAnc reg) tup args = true ↔ AppliesP reg tup args := by
  unfold applicableF AppliesP
  rw [Bool.and_eq_true, decide_eq_true_eq, zip_all_iff]
  constructor
  · rintro ⟨hlen, hall⟩
    exact ⟨hlen, fun k hk => (isAncF_regAnc_iff hr _ _).1 (hall k (by omega) hk)⟩
  · rintro ⟨hlen, hall⟩
    exact ⟨hlen, fun k hk1 hk2 => (isAncF_regAnc_iff hr _ _).2 (hall k hk2)⟩

theorem moreSpecificF_iff {reg : Registry} {rk : ClassId → Nat} (hr : RankOk reg rk)
    (ta tb : List ClassId) :
    moreSpecificF (regAnc reg) ta tb = true ↔ MoreSpecP reg ta tb := by
  unfold moreSpecificF MoreSpecP
  rw [Bool.and_eq_true, Bool.and_eq_true, decide_eq_true_eq, zip_all_iff, zip_any_iff]
  constructor
  · rintro ⟨⟨hlen, hall⟩, ⟨k, hk1, hk2, hp⟩⟩
    exact ⟨hlen, fun k' hk' => (isAncF_regAnc_iff hr _ _).1 (hall k' hk' (by omega)),
      ⟨k, hk1, by simpa using hp⟩⟩
  · rintro ⟨hlen, hall, ⟨k, hk, hne⟩⟩
    exact ⟨⟨hlen, fun k' hk1 hk2 => (isAncF_regAnc_iff hr _ _).2 (hall k' hk1)⟩,
      ⟨k, hk, by omega, by simpa using hne⟩⟩

theorem moreSpecP_irrefl (reg : Registry) (t : List ClassId) : ¬ MoreSpecP reg t t := by
  rintro ⟨-, -, k, hk, hne⟩
  exact hne rfl

theorem mem_appIndicesF (anc : ClassId → List ClassId) (ovs : List (List ClassId))
    (args : List ClassId) (i : Nat) :
    i ∈ appIndicesF anc ovs args ↔
      i < ovs.length ∧ applicableF anc (ovs.getD i []) args = true := by
  unfold appIndicesF
  rw [List.mem_filter, List.mem_range]

theorem appIndicesF_nodup (anc : ClassId → List ClassId) (ovs : List (List ClassId))
    (args : List ClassId) : (appIndicesF anc ovs args).Nodup := by
  unfold appIndicesF
  exact (List.nodup_range _).filter _

theorem mem_maximalsOfF (anc : ClassId → List ClassId) (ovs : List (List ClassId))
    (rem : List Nat) (i : Nat) :
    i ∈ maximalsOfF anc ovs rem ↔
      i ∈ rem ∧ ∀ j ∈ rem, j = i ∨ moreSpecificF anc (ovs.getD j []) (ovs.getD i []) = false := by
  unfold maximalsOfF
  rw [List.mem_filter, List.all_eq_true]
  constructor
  · rintro ⟨h1, h2⟩
    refine ⟨h1, fun j hj => ?_⟩
    have h3 := h2 j hj
    rw [Bool.or_eq_true, decide_eq_true_eq, Bool.not_eq_true'] at h3
    exact h3
  · rintro ⟨h1, h2⟩
    refine ⟨h1, fun j hj => ?_⟩
    rw [Bool.or_eq_true, decide_eq_true_eq, Bool.not_eq_true']
    exact h2 j hj

theorem maximalsOfF_nodup (anc : ClassId → List ClassId) (ovs : List (List ClassId))
    {rem : List Nat} (h : rem.Nodup) : (maximalsOfF anc ovs rem).Nodup :=
  h.filter _

theorem resolveF_selected_iff (anc : ClassId → List ClassId) (isReg : ClassId → Bool)
    (ovs : List (List ClassId)) (args : List ClassId)
    (hreg : args.all isReg = true) (i : Nat) :
    resolveF anc isReg ovs args = .selected i ↔
      maximalsOfF anc ovs (appIndicesF anc ovs args) = [i] := by
  unfold resolveF
  rw [if_pos hreg]
  rcases h : maximalsOfF anc ovs (appIndicesF anc ovs args) with _ | ⟨a, _ | ⟨b, t⟩⟩
  · simp
  · simp
  · simp

theorem resolveF_ambiguous_iff (anc : ClassId → List ClassId) (isReg : ClassId → Bool)
    (ovs : List (List ClassId)) (args : List ClassId)
    (hreg : args.all isReg = true) :
    resolveF anc isReg ovs args = .ambiguous ↔
      ∃ a b t, maximalsOfF anc ovs (appIndicesF anc ovs args) = a :: b :: t := by
  unfold resolveF
  rw [if_pos hreg]
  rcases h : maximalsOfF anc ovs (appIndicesF anc ovs args) with _ | ⟨a, _ | ⟨b, t⟩⟩
  · constructor
    · intro hc; cases hc
    · rintro ⟨x, y, tt, hc⟩; simp at hc
  · constructor
    · intro hc; cases hc
    · rintro ⟨x, y, tt, hc⟩; simp at hc
  · constructor
    · intro _; exact ⟨a, b, t, rfl⟩
    · intro _; rfl

theorem nodup_eq_singleton {l : List Nat} (hnd : l.Nodup) {i : Nat}
    (hi : i ∈ l) (hall : ∀ x ∈ l, x = i) : l = [i] := by
  cases l with
  | nil => cases hi
  | cons a t =>
    have ha : a = i := hall a (List.mem_cons_self _ _)
    subst ha
    cases t with
    | nil => rfl
    | cons b t2 =>
      have hb : b = a := hall b (by simp)
      subst hb
      simp at hnd

theorem mem_maximals_iff_maximalIdx {reg : Registry} {rk : ClassId → Nat} (hr : RankOk reg rk)
    (ovs : List (List ClassId)) (args : List ClassId) (i : Nat) :
    i ∈ maximalsOfF (regAnc reg) ovs (appIndicesF (regAnc reg) ovs args) ↔
      MaximalIdx reg ovs args i := by
  rw [mem_maximalsOfF]
  unfold MaximalIdx
  constructor
  · rintro ⟨h1, h2⟩
    have happ : ApplicableIdx reg ovs args i := by
      rcases (mem_appIndicesF _ _ _ _).1 h1 with ⟨hlt, happB⟩
      exact ⟨hlt, (applicableF_iff hr _ _).1 happB⟩
    refine ⟨happ, fun j hj hms => ?_⟩
    have hjmem : j ∈ appIndicesF (regAnc reg) ovs args :=
      (mem_appIndicesF _ _ _ _).2 ⟨hj.1, (applicableF_iff hr _ _).2 hj.2⟩
    rcases h2 j hjmem with rfl | hfalse
    · exact moreSpecP_irrefl reg _ hms
    · have htrue := (moreSpecificF_iff hr _ _).2 hms
      rw [hfalse] at htrue
      simp at htrue
  · rintro ⟨happ, hmax⟩
    refine ⟨(mem_appIndicesF _ _ _ _).2 ⟨happ.1, (applicableF_iff hr _ _).2 happ.2⟩,
      fun j hj => ?_⟩
    by_cases hji : j = i
    · exact Or.inl hji
    · right
      rcases (mem_appIndicesF _ _ _ _).1 hj with ⟨hlt, happB⟩
      have happj : ApplicableIdx reg ovs args j := ⟨hlt, (applicableF_iff hr _ _).1 happB⟩
      have hnot := hmax j happj
      cases hms : moreSpecificF (regAnc reg) (ovs.getD j []) (ovs.getD i []) with
      | false => rfl
      | true => exact absurd ((moreSpecificF_iff hr _ _).1 hms) hnot

/-- C1: an override is applicable iff each of its per-slot classes is a
reflexive ancestor of the corresponding actual argument class; the call
selects an override iff the applicable set has a unique maximal element
under the specificity partial order, and yields ambiguity exactly when
two or more distinct maximal applicable overrides exist — never an
arbitrary tie-break; and in the diamond scenario with sibling overrides
for Herbivore and Carnivore and none for Omnivore, dispatching on an
Omnivore instance yields AmbiguousCall. -/
theorem dispatch_decision_correct (reg : Registry) (rk : ClassId → Nat)
    (hr : RankOk reg rk) (ovs : List (List ClassId)) (args : List ClassId)
    (hreg : ∀ c ∈ args, c ∈ reg.classes) :
    (∀ i, i ∈ appIndices reg ovs args ↔ ApplicableIdx reg ovs args i)
    ∧ (∀ i, resolve reg ovs args = .selected i ↔
        (MaximalIdx reg ovs args i ∧ ∀ j, MaximalIdx reg ovs args j → j = i))
    ∧ (resolve reg ovs args = .ambiguous ↔
        ∃ i j, i ≠ j ∧ MaximalIdx reg ovs args i ∧ MaximalIdx reg ovs args j)
    ∧ callMethod omniReg omniOvs omniBodies [3] = .err .ambiguousCall := by
  have hregB : args.all (regHas reg) = true := by
    rw [List.all_eq_true]
    intro c hc
    unfold regHas
    exact decide_eq_true (hreg c hc)
  refine ⟨?_, ?_, ?_, by decide⟩
  · intro i
    unfold appIndices
    rw [mem_appIndicesF]
    unfold ApplicableIdx
    constructor
    · rintro ⟨h1, h2⟩; exact ⟨h1, (applicableF_iff hr _ _).1 h2⟩
    · rintro ⟨h1, h2⟩; exact ⟨h1, (applicableF_iff hr _ _).2 h2⟩
  · intro i
    unfold resolve
    rw [resolveF_selected_iff _ _ _ _ hregB]
    constructor
    · intro h
      have hmem : i ∈ maximalsOfF (regAnc reg) ovs (appIndicesF (regAnc reg) ovs args) := by
        rw [h]; simp
      refine ⟨(mem_maximals_iff_maximalIdx hr ovs args i).1 hmem, fun j hj => ?_⟩
      have hjm := (mem_maximals_iff_maximalIdx hr ovs args j).2 hj
      rw [h] at hjm
      simpa using hjm
    · rintro ⟨hi, huniq⟩
      apply nodup_eq_singleton
      · exact maximalsOfF_nodup _ _ (appIndicesF_nodup _ _ _)
      · exact (mem_maximals_iff_maximalIdx hr ovs args i).2 hi
      · intro x hx
        exact huniq x ((mem_maximals_iff_maximalIdx hr ovs args x).1 hx)
  · unfold resolve
    rw [resolveF_ambiguous_iff _ _ _ _ hregB]
    constructor
    · rintro ⟨a, b, t, habt⟩
      have hnd : (maximalsOfF (regAnc reg) ovs (appIndicesF (regAnc reg) ovs args)).Nodup :=
        maximalsOfF_nodup _ _ (appIndicesF_nodup _ _ _)
      rw [habt] at hnd
      rcases List.nodup_cons.1 hnd with ⟨hna, -⟩
      have hane : a ≠ b := fun hab => hna (hab ▸ List.mem_cons_self _ _)
      refine ⟨a, b, hane, (mem_maximals_iff_maximalIdx hr ovs args a).1 ?_,
        (mem_maximals_iff_maximalIdx hr ovs args b).1 ?_⟩
      · rw [habt]; simp
      · rw [habt]; simp
    · rintro ⟨i, j, hij, hi, hj⟩
      have hmi := (mem_maximals_iff_maximalIdx hr ovs args i).2 hi
      have hmj := (mem_maximals_iff_maximalIdx hr ovs args j).2 hj
      rcases h : maximalsOfF (regAnc reg) ovs (appIndicesF (regAnc reg) ovs args)
        with _ | ⟨a, _ | ⟨b, t⟩⟩
      · rw [h] at hmi; cases hmi
      · rw [h] at hmi hmj
        simp at hmi hmj
        exact absurd (hmi.trans hmj.symm) hij
      · exact ⟨a, b, t, rfl⟩

/-- Witness for C1: the diamond scenario itself. -/
theorem dispatch_decision_correct_witness :
    resolve omniReg omniOvs [3] = .ambiguous ↔
      ∃ i j, i ≠ j ∧ MaximalIdx omniReg omniOvs [3] i ∧ MaximalIdx omniReg omniOvs [3] j :=
  (dispatch_decision_correct omniReg omniRank omniRankOk omniOvs [3] (by decide)).2.2.1

theorem uniqueMaxF_eq_some (anc : ClassId → List ClassId) (ovs : List (List ClassId))
    (rem : List Nat) (i : Nat) :
    uniqueMaxF anc ovs rem = some i ↔ maximalsOfF anc ovs rem = [i] := by
  unfold uniqueMaxF
  rcases h : maximalsOfF anc ovs rem with _ | ⟨a, _ | ⟨b, t⟩⟩
  · simp
  · simp
  · simp

theorem uniqueMax_step_moreSpec (anc : ClassId → List ClassId) (ovs : List (List ClassId))
    {rem : List Nat} (hnd : rem.Nodup) {i j : Nat}
    (hi : uniqueMaxF anc ovs rem = some i)
    (hj : uniqueMaxF anc ovs (rem.erase i) = some j) :
    moreSpecificF anc (ovs.getD i []) (ovs.getD j []) = true := by
  rw [uniqueMaxF_eq_some] at hi hj
  have hjmem : j ∈ maximalsOfF anc ovs (rem.erase i) := by rw [hj]; simp
  have hjrem := (mem_maximalsOfF _ _ _ _).1 hjmem
  have hjerase : j ∈ rem.erase i := hjrem.1
  have hjne : j ≠ i := ((List.Nodup.mem_erase_iff hnd).1 hjerase).1
  have hjinrem : j ∈ rem := ((List.Nodup.mem_erase_iff hnd).1 hjerase).2
  have hjnotmax : j ∉ maximalsOfF anc ovs rem := by
    rw [hi]
    simp [hjne]
  by_cases hvm : ∀ v ∈ rem, v = j ∨ moreSpecificF anc (ovs.getD v []) (ovs.getD j []) = false
  · exact absurd ((mem_maximalsOfF _ _ _ _).2 ⟨hjinrem, hvm⟩) hjnotmax
  · push_neg at hvm
    rcases hvm with ⟨v, hvrem, hvj, hvfalse⟩
    have hvtrue : moreSpecificF anc (ovs.getD v []) (ovs.getD j []) = true := by
      cases hcase : moreSpecificF anc (ovs.getD v []) (ovs.getD j []) with
      | true => rfl
      | false => exact absurd hcase hvfalse
    by_cases hvi : v = i
    · subst hvi; exact hvtrue
    · have hverase : v ∈ rem.erase i := (List.Nodup.mem_erase_iff hnd).2 ⟨hvi, hvrem⟩
      rcases hjrem.2 v hverase with rfl | hfalse
      · exact absurd rfl hvj
      · rw [hfalse] at hvtrue
        simp at hvtrue

theorem chainAux_head (anc : ClassId → List ClassId) (ovs : List (List ClassId))
    (f : Nat) (rem : List Nat) (i : Nat) (rest : List Nat)
    (h : chainAuxF anc ovs f rem = i :: rest) :
    uniqueMaxF anc ovs rem = some i ∧ rest = chainAuxF anc ovs (f - 1) (rem.erase i) := by
  cases f with
  | zero => simp [chainAuxF] at h
  | succ f =>
    unfold chainAuxF at h
    rcases hm : uniqueMaxF anc ovs rem with _ | x
    · rw [hm] at h
      simp at h
    · rw [hm] at h
      simp at h
      rcases h with ⟨rfl, hrest⟩
      exact ⟨rfl, hrest.symm⟩

theorem chainAux_props (anc : ClassId → List ClassId) (ovs : List (List ClassId)) :
    ∀ (f : Nat) (rem : List Nat), rem.Nodup →
      (∀ x ∈ chainAuxF anc ovs f rem, x ∈ rem)
      ∧ (chainAuxF anc ovs f rem).Nodup
      ∧ (chainAuxF anc ovs f rem).Chain'
          (fun a b => moreSpecificF anc (ovs.getD a []) (ovs.getD b []) = true) := by
  intro f
  induction f with
  | zero =>
    intro rem hnd
    simp [chainAuxF]
  | succ f ih =>
    intro rem hnd
    rcases hm : uniqueMaxF anc ovs rem with _ | i
    · have hunf : chainAuxF anc ovs (f + 1) rem = [] := by
        unfold chainAuxF
        rw [hm]
      rw [hunf]
      simp
    · have hunf : chainAuxF anc ovs (f + 1) rem
          = i :: chainAuxF anc ovs f (rem.erase i) := by
        simp only [chainAuxF]
        rw [hm]
      have herase := ih (rem.erase i) (hnd.erase i)
      have himem : i ∈ rem := by
        have hmm : i ∈ maximalsOfF anc ovs rem := by
          rw [(uniqueMaxF_eq_some _ _ _ _).1 hm]
          simp
        exact ((mem_maximalsOfF _ _ _ _).1 hmm).1
      have hsub : ∀ x ∈ chainAuxF anc ovs f (rem.erase i), x ∈ rem := by
        intro x hx
        exact ((List.Nodup.mem_erase_iff hnd).1 (herase.1 x hx)).2
      rw [hunf]
      refine ⟨?_, ?_, ?_⟩
      · intro x hx
        rcases List.mem_cons.1 hx with rfl | hx2
        · exact himem
        · exact hsub x hx2
      · rw [List.nodup_cons]
        refine ⟨fun hc => ?_, herase.2.1⟩
        exact ((List.Nodup.mem_erase_iff hnd).1 (herase.1 i hc)).1 rfl
      · rcases hc : chainAuxF anc ovs f (rem.erase i) with _ | ⟨j, rest⟩
        · simp
        · have hstep := (chainAux_head anc ovs f (rem.erase i) j rest hc).1
          have hms := uniqueMax_step_moreSpec anc ovs hnd hm hstep
          rw [List.chain'_cons]
          have hch := herase.2.2
          rw [hc] at hch
          exact ⟨hms, hch⟩

/-- C4 (amended): for every method and every argument-class tuple with a
unique selection, the "next" chain starts at the selected override,
visits applicable overrides of strictly decreasing specificity with no
repetition, and terminates at the sentinel; it need not be a total order
on the whole applicable set — it stops at the sentinel as soon as the
remaining applicable set has no unique maximal element. -/
theorem next_chain_spec (reg : Registry) (ovs : List (List ClassId))
    (args : List ClassId) (i : Nat)
    (hsel : resolve reg ovs args = .selected i) :
    (nextChain reg ovs args).head? = some i
    ∧ (∀ x ∈ nextChain reg ovs args, x ∈ appIndices reg ovs args)
    ∧ (nextChain reg ovs args).Nodup
    ∧ (nextChain reg ovs args).Chain'
        (fun a b => moreSpecificF (regAnc reg) (ovs.getD a []) (ovs.getD b []) = true) := by
  have hreg : args.all (regHas reg) = true := by
    unfold resolve resolveF at hsel
    by_cases h : args.all (regHas reg) = true
    · exact h
    · rw [if_neg h] at hsel
      cases hsel
  have hmax : maximalsOfF (regAnc reg) ovs (appIndicesF (regAnc reg) ovs args) = [i] := by
    have hs2 := hsel
    unfold resolve at hs2
    exact (resolveF_selected_iff _ _ _ _ hreg i).1 hs2
  have hum : uniqueMaxF (regAnc reg) ovs (appIndicesF (regAnc reg) ovs args) = some i :=
    (uniqueMaxF_eq_some _ _ _ _).2 hmax
  have happnd := appIndicesF_nodup (regAnc reg) ovs args
  have himem : i ∈ appIndicesF (regAnc reg) ovs args := by
    have hmm : i ∈ maximalsOfF (regAnc reg) ovs (appIndicesF (regAnc reg) ovs args) := by
      rw [hmax]
      simp
    exact ((mem_maximalsOfF _ _ _ _).1 hmm).1
  have hprops := chainAux_props (regAnc reg) ovs
    (appIndicesF (regAnc reg) ovs args).length (appIndicesF (regAnc reg) ovs args) happnd
  have hhead : (nextChain reg ovs args).head? = some i := by
    rcases hlen : appIndicesF (regAnc reg) ovs args with _ | ⟨x, xs⟩
    · rw [hlen] at himem
      cases himem
    · have hn : (appIndicesF (regAnc reg) ovs args).length = xs.length + 1 := by
        rw [hlen]
        rfl
      have hunf : nextChainF (regAnc reg) ovs args
          = i :: chainAuxF (regAnc reg) ovs xs.length
              ((appIndicesF (regAnc reg) ovs args).erase i) := by
        unfold nextChainF
        rw [hn]
        simp only [chainAuxF]
        rw [hum]
      unfold nextChain
      rw [hunf]
      rfl
  exact ⟨hhead, hprops.1, hprops.2.1, hprops.2.2⟩

/-- Counterexample to C4 as stated: in the diamond, with overrides for
Herbivore, Carnivore and Omnivore, dispatching on Omnivore uniquely
selects the Omnivore override, yet the next chain stops right after it —
the two sibling overrides are incomparable maximal elements of the
remainder — so the chain is not a total order on the applicable
overrides. -/
theorem next_chain_not_total :
    resolve omniReg omni3Ovs [3] = .selected 2
    ∧ nextChain omniReg omni3Ovs [3] = [2]
    ∧ 0 ∈ appIndices omniReg omni3Ovs [3]
    ∧ 0 ∉ nextChain omniReg omni3Ovs [3] := by
  decide

/-- Witness for C4: the kick scenario on a Bulldog — the chain starts at
the selected Bulldog override. -/
theorem next_chain_spec_witness :
    (nextChain kickReg kickOvs [2]).head? = some 1 :=
  (next_chain_spec kickReg kickOvs [2] 1 (by decide)).1

/-- C3: in the hierarchy Animal → Dog → Bulldog, Animal → Cat, with kick
overrides for Dog ("bark") and for Bulldog (invokes next and appends
" and bite back"), dispatching on a Bulldog returns "bark and bite
back", dispatching on a plain Dog returns "bark", and dispatching on a
Cat yields NoApplicableOverride. -/
theorem kick_scenario :
    callMethod kickReg kickOvs kickBodies [2] = .ok "bark and bite back"
    ∧ callMethod kickReg kickOvs kickBodies [1] = .ok "bark"
    ∧ callMethod kickReg kickOvs kickBodies [3] = .err .noApplicableOverride := by
  decide

/-- C5: a dispatch call in which some virtual argument's runtime class
was never registered yields UnregisteredRuntimeClass instead of silently
resolving; in particular, a kick call on a Dog — a class used only as a
runtime type, never named by any override — when Dog was omitted from
the registry. -/
theorem unregistered_detected (reg : Registry) (ovs : List (List ClassId))
    (bodies : Nat → Option String → Option String) (args : List ClassId)
    (h : ∃ c ∈ args, c ∉ reg.classes) :
    callMethod reg ovs bodies args = .err .unregisteredRuntimeClass
    ∧ callMethod kickRegNoDog kickOvsAnimalBulldog kickBodies [1]
        = .err .unregisteredRuntimeClass := by
  refine ⟨?_, by decide⟩
  rcases h with ⟨c, hc, hnc⟩
  have hall : args.all (regHas reg) = false := by
    rcases hcase : args.all (regHas reg) with _ | _
    · rfl
    · have hmem := List.all_eq_true.1 hcase c hc
      unfold regHas at hmem
      rw [decide_eq_true_eq] at hmem
      exact absurd hmem hnc
  have hres : resolveF (regAnc reg) (regHas reg) ovs args = .unregistered := by
    unfold resolveF
    rw [hall]
    simp
  unfold callMethod callMethodF
  rw [hres]

/-- Witness for C5: dispatching on an entirely unknown class id. -/
theorem unregistered_detected_witness :
    callMethod kickReg kickOvs kickBodies [5] = .err .unregisteredRuntimeClass :=
  (unregistered_detected kickReg kickOvs kickBodies [5] (by decide)).1

/-- C6: rebuild is idempotent — rebuilding twice in succession with no
intervening registration yields the same engine state as rebuilding
once, so every subsequent dispatch call behaves identically. -/
theorem rebuild_idempotent (s : Sys) (bodies : Nat → Option String → Option String)
    (key sg : Nat) (args : List ClassId) :
    rebuild (rebuild s) = rebuild s
    ∧ sysCall (rebuild (rebuild s)) bodies key sg args
        = sysCall (rebuild s) bodies key sg args := by
  constructor
  · rfl
  · rfl

/-- C8: a dispatch call leaves the class registry, the method registry
and the compiled tables unchanged; the only state it may modify is the
lazy cache, which it can only extend with the entry for the queried
tuple. -/
theorem dispatch_frame (s : Sys) (bodies : Nat → Option String → Option String)
    (key sg : Nat) (args : List ClassId) :
    (sysCall s bodies key sg args).2.reg = s.reg
    ∧ (sysCall s bodies key sg args).2.methods = s.methods
    ∧ (sysCall s bodies key sg args).2.tables = s.tables
    ∧ ((sysCall s bodies key sg args).2.cache = s.cache
        ∨ (sysCall s bodies key sg args).2.cache
            = ((key, sg, args), (sysCall s bodies key sg args).1) :: s.cache) := by
  unfold sysCall
  rcases h : s.cache.find? (fun e => decide (e.1 = (key, sg, args))) with _ | e
  · rw [h]
    exact ⟨rfl, rfl, rfl, Or.inr rfl⟩
  · rw [h]
    exact ⟨rfl, rfl, rfl, Or.inl rfl⟩

theorem mem_addClass (cs : List ClassId) (c x : ClassId) :
    x ∈ addClass cs c ↔ x ∈ cs ∨ x = c := by
  unfold addClass
  split
  · rename_i hin
    constructor
    · exact Or.inl
    · rintro (h | rfl)
      · exact h
      · exact hin
  · simp

theorem nodup_addClass {cs : List ClassId} (h : cs.Nodup) (c : ClassId) :
    (addClass cs c).Nodup := by
  unfold addClass
  split
  · exact h
  · rename_i hnin
    rw [List.nodup_append]
    refine ⟨h, List.nodup_singleton c, ?_⟩
    intro a ha hc
    rw [List.mem_singleton] at hc
    subst hc
    exact hnin ha

theorem mem_addClasses (batch : List ClassId) :
    ∀ (cs : List ClassId) (x : ClassId), x ∈ addClasses cs batch ↔ x ∈ cs ∨ x ∈ batch := by
  induction batch with
  | nil =>
    intro cs x
    simp [addClasses]
  | cons b batch ih =>
    intro cs x
    have hstep : addClasses cs (b :: batch) = addClasses (addClass cs b) batch := rfl
    rw [hstep, ih, mem_addClass]
    simp [List.mem_cons, or_assoc]

theorem nodup_addClasses (batch : List ClassId) :
    ∀ {cs : List ClassId}, cs.Nodup → (addClasses cs batch).Nodup := by
  induction batch with
  | nil =>
    intro cs h
    exact h
  | cons b batch ih =>
    intro cs h
    exact ih (nodup_addClass h b)

theorem mem_inferredEdges (world : List (ClassId × ClassId)) (batch : List ClassId)
    (e : ClassId × ClassId) :
    e ∈ inferredEdges world batch ↔ e.1 ∈ batch ∧ e.2 ∈ batch ∧ e ∈ world := by
  unfold inferredEdges
  rw [List.mem_flatMap]
  constructor
  · rintro ⟨c, hc, he⟩
    rcases List.mem_map.1 he with ⟨b, hb, rfl⟩
    rcases List.mem_filter.1 hb with ⟨hbb, hbw⟩
    rw [decide_eq_true_eq] at hbw
    exact ⟨hc, hbb, hbw⟩
  · rintro ⟨h1, h2, h3⟩
    refine ⟨e.1, h1, List.mem_map.2 ⟨e.2, List.mem_filter.2 ⟨h2, ?_⟩, rfl⟩⟩
    exact decide_eq_true h3

/-- C7: a direct-base edge is recorded by a registration batch exactly
when both its ends appear together in that batch and are related by the
ambient inheritance relation — edges are never inferred across separate
batches; edges of earlier batches are kept, never removed; and
re-declaring an already-known class is a no-op for its identity: class
membership is the union with the batch and no duplicate entry is
created. -/
theorem declare_classes_edges (world : List (ClassId × ClassId)) (batch : List ClassId)
    (r : Registry) (hnd : r.classes.Nodup) :
    (∀ e : ClassId × ClassId, e ∈ (use_classes world batch r).edges ↔
        e ∈ r.edges ∨ (e.1 ∈ batch ∧ e.2 ∈ batch ∧ e ∈ world))
    ∧ (∀ c, c ∈ (use_classes world batch r).classes ↔ c ∈ r.classes ∨ c ∈ batch)
    ∧ (use_classes world batch r).classes.Nodup := by
  refine ⟨fun e => ?_, fun c => ?_, ?_⟩
  · show e ∈ r.edges ++ inferredEdges world batch ↔ _
    rw [List.mem_append, mem_inferredEdges]
  · exact mem_addClasses batch r.classes c
  · exact nodup_addClasses batch hnd

/-- Witness for C7: an incremental batch over the diamond registry. -/
theorem declare_classes_edges_witness :
    (3, 0) ∈ (use_classes [(1, 0)] [0, 3] omniReg).edges ↔
      (3, 0) ∈ omniReg.edges ∨ (3 ∈ [0, 3] ∧ 0 ∈ [0, 3] ∧ (3, 0) ∈ [(1, 0)]) :=
  (declare_classes_edges [(1, 0)] [0, 3] omniReg (by decide)).1 (3, 0)

theorem declSeq_edges (world : List (ClassId × ClassId)) (B : List ClassId) :
    ∀ (l : List ClassId) (r : Registry),
      (l.foldl (fun acc c =>
          classDecl c (B.filter (fun b => decide ((c, b) ∈ world))) acc) r).edges
        = r.edges ++ l.flatMap (fun c =>
            (B.filter (fun b => decide ((c, b) ∈ world))).map (fun b => (c, b))) := by
  intro l
  induction l with
  | nil =>
    intro r
    simp
  | cons c l ih =>
    intro r
    rw [List.foldl_cons, ih]
    show (classDecl c (B.filter (fun b => decide ((c, b) ∈ world))) r).edges ++ _ = _
    simp [classDecl, List.append_assoc]

theorem declSeq_classes (world : List (ClassId × ClassId)) (B : List ClassId) :
    ∀ (l : List ClassId) (r : Registry) (x : ClassId),
      (x ∈ (l.foldl (fun acc c =>
          classDecl c (B.filter (fun b => decide ((c, b) ∈ world))) acc) r).classes)
        ↔ x ∈ r.classes
            ∨ ∃ c ∈ l, x = c ∨ x ∈ B.filter (fun b => decide ((c, b) ∈ world)) := by
  intro l
  induction l with
  | nil =>
    intro r x
    simp
  | cons c l ih =>
    intro r x
    rw [List.foldl_cons, ih]
    have h1 : x ∈ (classDecl c (B.filter (fun b => decide ((c, b) ∈ world))) r).classes
        ↔ x ∈ r.classes ∨ (x = c ∨ x ∈ B.filter (fun b => decide ((c, b) ∈ world))) := by
      show x ∈ addClasses r.classes (c :: B.filter (fun b => decide ((c, b) ∈ world))) ↔ _
      rw [mem_addClasses]
      simp [List.mem_cons]
    rw [h1]
    constructor
    · rintro ((hr | hcb) | ⟨c2, hc2, hd⟩)
      · exact Or.inl hr
      · exact Or.inr ⟨c, List.mem_cons_self _ _, hcb⟩
      · exact Or.inr ⟨c2, List.mem_cons_of_mem _ hc2, hd⟩
    · rintro (hr | ⟨c2, hc2, hd⟩)
      · exact Or.inl (Or.inl hr)
      · rcases List.mem_cons.1 hc2 with rfl | hc2b
        · exact Or.inl (Or.inr hd)
        · exact Or.inr ⟨c2, hc2b, hd⟩

theorem ancestorsOf_congr {r1 r2 : Registry} (h : r1.edges = r2.edges) :
    ancestorsOf r1 = ancestorsOf r2 := by
  funext c
  unfold ancestorsOf fuelOf
  rw [h]

theorem regAnc_congr {r1 r2 : Registry} (h : r1.edges = r2.edges) :
    regAnc r1 = regAnc r2 := by
  funext c
  unfold regAnc
  rw [ancestorsOf_congr h]

theorem regHas_congr {r1 r2 : Registry} (h : ∀ x, x ∈ r1.classes ↔ x ∈ r2.classes) :
    regHas r1 = regHas r2 := by
  funext c
  unfold regHas
  exact decide_eq_decide.mpr (h c)

theorem callMethod_congr {r1 r2 : Registry} (he : r1.edges = r2.edges)
    (hc : ∀ x, x ∈ r1.classes ↔ x ∈ r2.classes) (ovs : List (List ClassId))
    (bodies : Nat → Option String → Option String) (args : List ClassId) :
    callMethod r1 ovs bodies args = callMethod r2 ovs bodies args := by
  unfold callMethod
  rw [regAnc_congr he, regHas_congr hc]

theorem compile_find (reg : Registry) (x : ClassId) :
    ∀ (l : List ClassId),
      (l.map (fun c => (c, ancestorsOf reg c))).find? (fun p => decide (p.1 = x))
        = (if x ∈ l then some (x, ancestorsOf reg x) else none) := by
  intro l
  induction l with
  | nil => simp
  | cons c l ih =>
    rw [List.map_cons]
    by_cases hcx : c = x
    · subst hcx
      rw [List.find?_cons_of_pos _ (by simp), if_pos (List.mem_cons_self _ _)]
    · rw [List.find?_cons_of_neg _ (by simpa using hcx), ih]
      by_cases hx : x ∈ l
      · rw [if_pos hx, if_pos (List.mem_cons_of_mem _ hx)]
      · rw [if_neg hx, if_neg]
        intro hmem
        rcases List.mem_cons.1 hmem with rfl | h2
        · exact hcx rfl
        · exact hx h2

theorem tableAnc_compile (reg : Registry) (x : ClassId) :
    tableAnc (compile reg) x = if x ∈ reg.classes then ancestorsOf reg x else [] := by
  unfold tableAnc compile
  rw [compile_find]
  by_cases hx : x ∈ reg.classes
  · rw [if_pos hx, if_pos hx]
    rfl
  · rw [if_neg hx, if_neg hx]
    rfl

theorem tableHas_compile (reg : Registry) (x : ClassId) :
    tableHas (compile reg) x = decide (x ∈ reg.classes) := by
  unfold tableHas compile
  rw [compile_find]
  by_cases hx : x ∈ reg.classes
  · rw [if_pos hx, decide_eq_true hx]
    rfl
  · rw [if_neg hx]
    simp [hx]

/-- C10: registering a batch with the inferred-relationship form
(`use_classes`) yields the same registry state as the series of
single-class registrations that lists, for each batch member, its direct
bases among the batch: literally the same direct-base edges, the same
class set, and identical compiled tables and dispatch behavior
afterwards. -/
theorem use_classes_refines_classDecl (world : List (ClassId × ClassId))
    (batch : List ClassId) (r : Registry) :
    (use_classes world batch r).edges = (declSeq world batch r).edges
    ∧ (∀ x, x ∈ (use_classes world batch r).classes
        ↔ x ∈ (declSeq world batch r).classes)
    ∧ (∀ c, tableAnc (compile (use_classes world batch r)) c
        = tableAnc (compile (declSeq world batch r)) c)
    ∧ (∀ c, tableHas (compile (use_classes world batch r)) c
        = tableHas (compile (declSeq world batch r)) c)
    ∧ (∀ ovs bodies args, callMethod (use_classes world batch r) ovs bodies args
        = callMethod (declSeq world batch r) ovs bodies args) := by
  have hedges : (use_classes world batch r).edges = (declSeq world batch r).edges := by
    unfold declSeq
    rw [declSeq_edges world batch batch r]
    rfl
  have hclasses : ∀ x, x ∈ (use_classes world batch r).classes
      ↔ x ∈ (declSeq world batch r).classes := by
    intro x
    have hL : x ∈ (use_classes world batch r).classes ↔ x ∈ r.classes ∨ x ∈ batch :=
      mem_addClasses batch r.classes x
    have hR : x ∈ (declSeq world batch r).classes
        ↔ x ∈ r.classes
            ∨ ∃ c ∈ batch, x = c ∨ x ∈ batch.filter (fun b => decide ((c, b) ∈ world)) :=
      declSeq_classes world batch batch r x
    rw [hL, hR]
    constructor
    · rintro (hr | hb)
      · exact Or.inl hr
      · exact Or.inr ⟨x, hb, Or.inl rfl⟩
    · rintro (hr | ⟨c, hc, rfl | hf⟩)
      · exact Or.inl hr
      · exact Or.inr hc
      · exact Or.inr (List.mem_filter.1 hf).1
  have hanc := ancestorsOf_congr hedges
  refine ⟨hedges, hclasses, fun c => ?_, fun c => ?_, fun ovs bodies args => ?_⟩
  · rw [tableAnc_compile, tableAnc_compile]
    by_cases hx : c ∈ (use_classes world batch r).classes
    · rw [if_pos hx, if_pos ((hclasses c).1 hx)]
      exact congrFun hanc c
    · rw [if_neg hx, if_neg (fun hx2 => hx ((hclasses c).2 hx2))]
  · rw [tableHas_compile, tableHas_compile]
    exact decide_eq_decide.mpr (hclasses c)
  · exact callMethod_congr hedges hclasses ovs bodies args

theorem declare_method_error_iff (key sg : Nat) (ms : List MethodSpec) :
    declare_method key sg ms = .error .duplicateMethod
      ↔ ∃ m ∈ ms, m.key = key ∧ m.sig = sg := by
  unfold declare_method
  by_cases h : ms.any (fun m => decide (m.key = key) && decide (m.sig = sg)) = true
  · rw [if_pos h]
    constructor
    · intro _
      rcases List.any_eq_true.1 h with ⟨m, hm, hp⟩
      rw [Bool.and_eq_true, decide_eq_true_eq, decide_eq_true_eq] at hp
      exact ⟨m, hm, hp⟩
    · intro _
      rfl
  · rw [if_neg h]
    constructor
    · intro hc
      cases hc
    · rintro ⟨m, hm, h1, h2⟩
      refine absurd (List.any_eq_true.2 ⟨m, hm, ?_⟩) h
      rw [Bool.and_eq_true, decide_eq_true_eq, decide_eq_true_eq]
      exact ⟨h1, h2⟩

theorem find?_map_preserve (p : MethodSpec → Bool) (g : MethodSpec → MethodSpec)
    (hpres : ∀ m, p (g m) = p m) (hfix : ∀ m, p m = true → g m = m) :
    ∀ ms : List MethodSpec, (ms.map g).find? p = ms.find? p := by
  intro ms
  induction ms with
  | nil => rfl
  | cons m ms ih =>
    rw [List.map_cons]
    by_cases hm : p m = true
    · rw [List.find?_cons_of_pos _ (by rw [hpres]; exact hm),
        List.find?_cons_of_pos _ hm, hfix m hm]
    · rw [List.find?_cons_of_neg _ (by rw [hpres]; exact hm),
        List.find?_cons_of_neg _ hm, ih]

theorem findMethod_add_override_ne (key sg1 sg2 : Nat) (hne : sg1 ≠ sg2)
    (tup : List ClassId) (ms : List MethodSpec) :
    findMethod key sg1 (add_override key sg2 tup ms) = findMethod key sg1 ms := by
  unfold findMethod add_override
  apply find?_map_preserve
  · intro m
    by_cases hm : (decide (m.key = key) && decide (m.sig = sg2)) = true
    · rw [if_pos hm]
    · rw [if_neg hm]
  · intro m hm
    rw [Bool.and_eq_true, decide_eq_true_eq, decide_eq_true_eq] at hm
    rw [if_neg]
    intro hc
    rw [Bool.and_eq_true, decide_eq_true_eq, decide_eq_true_eq] at hc
    exact hne (hm.2.symm.trans hc.2)

/-- C9: declare_method fails with DuplicateMethod exactly when both the
key and the signature match an existing method; with the same key but a
fresh signature it succeeds, creating a distinct method, and attaching
overrides to the new method leaves any same-key method of a different
signature — and hence its dispatch — untouched. -/
theorem declare_method_duplicate (key sg1 sg2 : Nat) (ms : List MethodSpec)
    (hne : sg1 ≠ sg2) (hfresh : ∀ m ∈ ms, ¬(m.key = key ∧ m.sig = sg2)) :
    (declare_method key sg2 ms = .error .duplicateMethod
      ↔ ∃ m ∈ ms, m.key = key ∧ m.sig = sg2)
    ∧ ∃ ms2, declare_method key sg2 ms = .ok ms2
        ∧ findMethod key sg2 ms2 = some ⟨key, sg2, []⟩
        ∧ (∀ tup, findMethod key sg1 (add_override key sg2 tup ms2)
            = findMethod key sg1 ms)
        ∧ (∀ reg tup bodies args,
            callMethod reg
                (ovsOf (findMethod key sg1 (add_override key sg2 tup ms2))) bodies args
              = callMethod reg (ovsOf (findMethod key sg1 ms)) bodies args) := by
  have hany : ms.any (fun m => decide (m.key = key) && decide (m.sig = sg2)) = false := by
    rcases hcase : ms.any (fun m => decide (m.key = key) && decide (m.sig = sg2)) with _ | _
    · rfl
    · rcases List.any_eq_true.1 hcase with ⟨m, hm, hp⟩
      rw [Bool.and_eq_true, decide_eq_true_eq, decide_eq_true_eq] at hp
      exact absurd hp (hfresh m hm)
  have hnone : findMethod key sg2 ms = none := by
    unfold findMethod
    rw [List.find?_eq_none]
    intro m hm hp
    rw [Bool.and_eq_true, decide_eq_true_eq, decide_eq_true_eq] at hp
    exact hfresh m hm hp
  have hok : declare_method key sg2 ms = .ok (ms ++ [⟨key, sg2, []⟩]) := by
    unfold declare_method
    rw [if_neg]
    rw [hany]
    simp
  have hfind2 : findMethod key sg2 (ms ++ [⟨key, sg2, []⟩]) = some ⟨key, sg2, []⟩ := by
    unfold findMethod
    rw [List.find?_append]
    unfold findMethod at hnone
    rw [hnone]
    simp
  have hfind1base : findMethod key sg1 (ms ++ [⟨key, sg2, []⟩]) = findMethod key sg1 ms := by
    unfold findMethod
    rw [List.find?_append]
    have hsingle : ([(⟨key, sg2, []⟩ : MethodSpec)]).find?
        (fun m => decide (m.key = key) && decide (m.sig = sg1)) = none := by
      rw [List.find?_eq_none]
      intro m hm hp
      rw [List.mem_singleton] at hm
      subst hm
      rw [Bool.and_eq_true, decide_eq_true_eq, decide_eq_true_eq] at hp
      exact hne (hp.2.symm)
    rw [hsingle]
    exact Option.or_none
  have hfind1 : ∀ tup, findMethod key sg1 (add_override key sg2 tup (ms ++ [⟨key, sg2, []⟩]))
      = findMethod key sg1 ms := by
    intro tup
    rw [findMethod_add_override_ne key sg1 sg2 hne tup, hfind1base]
  refine ⟨declare_method_error_iff key sg2 ms,
    ms ++ [⟨key, sg2, []⟩], hok, hfind2, hfind1, fun reg tup bodies args => ?_⟩
  rw [hfind1 tup]

/-- Witness for C9: one existing method with key 0 and signature 0; a
second declaration with key 0 and fresh signature 1. -/
theorem declare_method_duplicate_witness :
    declare_method 0 1 [⟨0, 0, [[1]]⟩] = .error .duplicateMethod
      ↔ ∃ m ∈ [(⟨0, 0, [[1]]⟩ : MethodSpec)], m.key = 0 ∧ m.sig = 1 :=
  (declare_method_duplicate 0 0 1 [⟨0, 0, [[1]]⟩] (by decide) (by decide)).1

end Yomm
